import Mathlib

/-!
Verification of the flaky-test hierarchy classifier of the repository
(`tasks/libs/testing/flakes.py`, exercised by
`tasks/unit_tests/flakes_tests.py`).

Test names are slash-delimited strings; we embed them as lists of
characters (`Name`), sets of names as lists with membership semantics,
and each classifier operation as an executable Lean function.
-/

namespace Flakes

/-- The path separator of test names. -/
def sep : Char := '/'

/-- A test name: a string, embedded as its list of characters. -/
abbrev Name := List Char

/-- Convert a string literal to a `Name`. -/
def nm (s : String) : Name := s.data

/-- Number of separators occurring in a name (the depth of the node). -/
def depth : Name → Nat
  | [] => 0
  | c :: rest => (if c = sep then 1 else 0) + depth rest

/-- Number of `/`-separated segments of a name, as Python's
`name.split('/')` counts them: one more than the number of separators. -/
def numSegments (n : Name) : Nat := depth n + 1

/-- Boolean test that `p` is a prefix of `s` (Python `s.startswith(p)`). -/
def startsWith : Name → Name → Bool
  | [], _ => true
  | _ :: _, [] => false
  | a :: as, b :: bs => a == b && startsWith as bs

/-- Modelled from the spec: `is_strict_child(parent, child)` of the missing
module `tasks/libs/testing/flakes.py` is true iff
`child == parent + "/" + <anything non-empty>`, i.e. `child` begins with
`parent` followed immediately by a single `/` separator and a non-empty
remainder (a strict descendant at any depth, not a mere string match). -/
def is_strict_child (parent child : Name) : Bool :=
  startsWith (parent ++ [sep]) child && decide (parent.length + 1 < child.length)

/-- Modelled from the spec: `get_child_test_in_list(test, tests)` of the
missing module `tasks/libs/testing/flakes.py` returns the ordered
subsequence of `tests` consisting of the strict descendants of `test`. -/
def get_child_test_in_list (test : Name) (tests : List Name) : List Name :=
  tests.filter (fun c => is_strict_child test c)

/-- Helper for `family_of`: walks the characters of the name, emitting the
accumulated prefix at every separator boundary, then the full name. -/
def famAux (acc : Name) : Name → List Name
  | [] => [acc]
  | c :: rest =>
      if c = sep then acc :: famAux (acc ++ [c]) rest
      else famAux (acc ++ [c]) rest

/-- Modelled from the spec: the family of a single name in the missing
module `tasks/libs/testing/flakes.py` — the name together with every
cumulative `/`-prefix of it (`"A/B/C"` yields `A`, `A/B`, `A/B/C`). -/
def family_of (n : Name) : List Name := famAux [] n

/-- Modelled from the spec: `get_tests_family(test_name_list)` of the
missing module `tasks/libs/testing/flakes.py` — the union of the families
of the given names. -/
def get_tests_family (l : List Name) : List Name :=
  l.foldr (fun n acc => family_of n ++ acc) []

/-- Modelled from the spec: `get_tests_family_if_failing_tests` of the
missing module `tasks/libs/testing/flakes.py` — keep only the given names
that are themselves failing or have a strict ancestor in the failing set,
and return the family union of that filtered subset. -/
def get_tests_family_if_failing_tests (leaves : List Name) (failing : List Name) : List Name :=
  get_tests_family
    (leaves.filter (fun n =>
      decide (n ∈ failing) || failing.any (fun a => is_strict_child a n)))

/-- Modelled from the spec: `is_known_flaky_test(name, known_flaky, fam)`
of the missing module `tasks/libs/testing/flakes.py` — the name is known
flaky if it is itself in the known-flaky set, or a strict ancestor of it
belonging to `fam` is in the known-flaky set; extended with the upward
branch forced by the unit tests of `tasks/unit_tests/flakes_tests.py`
(lines 77-89): a name of `fam` that has a strict descendant in the
known-flaky set is also classified flaky. -/
def is_known_flaky_test (name : Name) (known_flaky : List Name) (fam : List Name) : Bool :=
  decide (name ∈ known_flaky)
    || fam.any (fun a => decide (a ∈ known_flaky) && is_strict_child a name)
    || (decide (name ∈ fam) && known_flaky.any (fun k => is_strict_child name k))

/-- Largest depth of a name in a list (0 when the list is empty). -/
def maxDepth : List Name → Nat
  | [] => 0
  | n :: rest => max (depth n) (maxDepth rest)

/-- One pass of the consolidation at a given depth `d`: every failing name
of depth `d` that is not yet marked, has at least one strict descendant in
the failing set, and all of whose strict descendants in the failing set
are already marked, gets marked. -/
def consolidateLevel (failing : List Name) (d : Nat) (acc : List Name) : List Name :=
  acc ++ failing.filter (fun t =>
    depth t == d && !(decide (t ∈ acc)) &&
      (let ch := get_child_test_in_list t failing
       !ch.isEmpty && ch.all (fun c => decide (c ∈ acc))))

/-- Process the depth levels of the failing set from deepest to
shallowest: a call with fuel `d + 1` processes depth `d` next. -/
def consolidateGo (failing : List Name) : Nat → List Name → List Name
  | 0, acc => acc
  | d + 1, acc => consolidateGo failing d (consolidateLevel failing d acc)

/-- Modelled from the spec: `consolidate_flaky_failures(flaky, failing)`
of the missing module `tasks/libs/testing/flakes.py` — starting from the
known-flaky set, process the failing names from deepest (most separators)
to shallowest, marking a name flaky when it has at least one strict
descendant in the failing set and every such descendant is already marked
flaky; return all marked names. -/
def consolidate_flaky_failures (flaky failing : List Name) : List Name :=
  consolidateGo failing (maxDepth failing + 1) flaky

/-- Fuel-indexed form of the recursive flaky-explanation condition of the
spec: a name is flaky-explained when it is directly known flaky, or it has
at least one strict descendant in the failing set and every such
descendant is recursively flaky-explained. -/
def flakyCondFuel (K F : List Name) : Nat → Name → Bool
  | 0, t => decide (t ∈ K)
  | f + 1, t =>
      decide (t ∈ K) ||
        (let ch := get_child_test_in_list t F
         !ch.isEmpty && ch.all (fun c => flakyCondFuel K F f c))

/-- The recursive flaky-explanation condition, instantiated with enough
fuel to reach the deepest name of the failing set from `t`. -/
def flakyCond (K F : List Name) (t : Name) : Bool :=
  flakyCondFuel K F (maxDepth F + 1 - depth t) t

theorem startsWith_iff (p : Name) : ∀ s : Name, startsWith p s = true ↔ ∃ t, s = p ++ t := by
  induction p with
  | nil => intro s; simp [startsWith]
  | cons a as ih =>
      intro s
      cases s with
      | nil => simp [startsWith]
      | cons b bs =>
          simp only [startsWith, Bool.and_eq_true, beq_iff_eq, ih, List.cons_append,
            List.cons.injEq]
          constructor
          · rintro ⟨rfl, t, rfl⟩; exact ⟨t, rfl, rfl⟩
          · rintro ⟨t, rfl, rfl⟩; exact ⟨rfl, t, rfl⟩

theorem is_strict_child_iff (a b : Name) :
    is_strict_child a b = true ↔ ∃ r, r ≠ [] ∧ b = a ++ sep :: r := by
  simp only [is_strict_child, Bool.and_eq_true, startsWith_iff, decide_eq_true_iff]
  constructor
  · rintro ⟨⟨t, rfl⟩, hlen⟩
    refine ⟨t, ?_, by simp⟩
    intro h
    subst h
    simp at hlen
  · rintro ⟨r, hr, rfl⟩
    refine ⟨⟨r, by simp⟩, ?_⟩
    have : r.length ≠ 0 := by simpa using hr
    simp [List.length_append]
    omega

theorem depth_append (a b : Name) : depth (a ++ b) = depth a + depth b := by
  induction a with
  | nil => simp [depth]
  | cons c cs ih => simp [depth, ih]; omega

theorem depth_lt_of_strict_child {a b : Name} (h : is_strict_child a b = true) :
    depth a < depth b := by
  obtain ⟨r, -, rfl⟩ := (is_strict_child_iff a b).mp h
  simp [depth_append, depth, sep]

theorem mem_child_list {c t : Name} {l : List Name} :
    c ∈ get_child_test_in_list t l ↔ c ∈ l ∧ is_strict_child t c = true := by
  simp [get_child_test_in_list, List.mem_filter]

theorem depth_le_maxDepth {t : Name} : ∀ {F : List Name}, t ∈ F → depth t ≤ maxDepth F := by
  intro F
  induction F with
  | nil => simp
  | cons n rest ih =>
      intro h
      rcases List.mem_cons.mp h with rfl | h
      · simp [maxDepth]
      · have := ih h
        simp only [maxDepth]
        omega

theorem child_list_nil_of_maxDepth_lt {t : Name} {F : List Name}
    (h : maxDepth F < depth t) : get_child_test_in_list t F = [] := by
  refine List.filter_eq_nil_iff.mpr ?_
  intro c hc hsc
  have h1 := depth_lt_of_strict_child hsc
  have h2 := depth_le_maxDepth hc
  omega

theorem all_congr_mem {α : Type} {l : List α} {p q : α → Bool}
    (h : ∀ a ∈ l, p a = q a) : l.all p = l.all q := by
  induction l with
  | nil => rfl
  | cons a as ih =>
      simp only [List.all_cons, h a (List.mem_cons_self a as),
        ih fun b hb => h b (List.mem_cons_of_mem a hb)]

theorem flakyCondFuel_stable (K F : List Name) :
    ∀ f₁ f₂ t, maxDepth F + 1 - depth t ≤ f₁ → maxDepth F + 1 - depth t ≤ f₂ →
      flakyCondFuel K F f₁ t = flakyCondFuel K F f₂ t := by
  intro f₁
  induction f₁ with
  | zero =>
      intro f₂ t h₁ h₂
      have hd : maxDepth F < depth t := by omega
      have hch := child_list_nil_of_maxDepth_lt hd
      cases f₂ with
      | zero => rfl
      | succ g => simp [flakyCondFuel, hch]
  | succ a ih =>
      intro f₂ t h₁ h₂
      cases f₂ with
      | zero =>
          have hd : maxDepth F < depth t := by omega
          have hch := child_list_nil_of_maxDepth_lt hd
          simp [flakyCondFuel, hch]
      | succ b =>
          have hcong : ∀ c ∈ get_child_test_in_list t F,
              flakyCondFuel K F a c = flakyCondFuel K F b c := by
            intro c hc
            obtain ⟨hcF, hsc⟩ := mem_child_list.mp hc
            have hlt := depth_lt_of_strict_child hsc
            have hle := depth_le_maxDepth hcF
            exact ih b c (by omega) (by omega)
          simp only [flakyCondFuel]
          rw [all_congr_mem hcong]

theorem flakyCond_unfold (K F : List Name) (t : Name) :
    flakyCond K F t = true ↔
      t ∈ K ∨ (get_child_test_in_list t F ≠ [] ∧
        ∀ c ∈ get_child_test_in_list t F, flakyCond K F c = true) := by
  unfold flakyCond
  cases hbd : maxDepth F + 1 - depth t with
  | zero =>
      have hd : maxDepth F < depth t := by omega
      have hch := child_list_nil_of_maxDepth_lt hd
      simp [flakyCondFuel, hch]
  | succ a =>
      have hcong : ∀ c ∈ get_child_test_in_list t F,
          flakyCondFuel K F a c = flakyCondFuel K F (maxDepth F + 1 - depth c) c := by
        intro c hc
        obtain ⟨hcF, hsc⟩ := mem_child_list.mp hc
        have hlt := depth_lt_of_strict_child hsc
        have hle := depth_le_maxDepth hcF
        exact flakyCondFuel_stable K F a _ c (by omega) (by omega)
      simp only [flakyCondFuel]
      rw [all_congr_mem hcong]
      simp [List.all_eq_true, List.isEmpty_iff, Bool.or_eq_true, Bool.and_eq_true,
        decide_eq_true_iff, Bool.not_eq_true']

theorem mem_consolidateLevel {F : List Name} {d : Nat} {acc : List Name} {t : Name} :
    t ∈ consolidateLevel F d acc ↔
      t ∈ acc ∨ (t ∈ F ∧ depth t = d ∧ t ∉ acc ∧
        get_child_test_in_list t F ≠ [] ∧
        ∀ c ∈ get_child_test_in_list t F, c ∈ acc) := by
  simp [consolidateLevel, List.mem_append, List.mem_filter, Bool.and_eq_true, beq_iff_eq,
    List.all_eq_true, decide_eq_true_iff, List.isEmpty_iff, Bool.not_eq_true',
    decide_eq_false_iff_not, and_assoc]

theorem consolidateGo_inv (K F : List Name) :
    ∀ (d : Nat) (acc : List Name),
      (∀ t, t ∈ acc ↔ t ∈ K ∨ (t ∈ F ∧ d ≤ depth t ∧ flakyCond K F t = true)) →
      ∀ t, t ∈ consolidateGo F d acc ↔ t ∈ K ∨ (t ∈ F ∧ flakyCond K F t = true) := by
  intro d
  induction d with
  | zero =>
      intro acc hInv t
      simp only [consolidateGo]
      rw [hInv t]
      simp
  | succ d ih =>
      intro acc hInv t
      simp only [consolidateGo]
      refine ih (consolidateLevel F d acc) ?_ t
      intro u
      rw [mem_consolidateLevel]
      constructor
      · rintro (hu | ⟨huF, hdep, -, hch, hall⟩)
        · rcases (hInv u).mp hu with h | ⟨h1, h2, h3⟩
          · exact Or.inl h
          · exact Or.inr ⟨h1, by omega, h3⟩
        · refine Or.inr ⟨huF, by omega, ?_⟩
          rw [flakyCond_unfold]
          refine Or.inr ⟨hch, ?_⟩
          intro c hc
          rcases (hInv c).mp (hall c hc) with h | ⟨-, -, h⟩
          · rw [flakyCond_unfold]; exact Or.inl h
          · exact h
      · rintro (hu | ⟨huF, hdep, hcond⟩)
        · exact Or.inl ((hInv u).mpr (Or.inl hu))
        · rcases Nat.lt_or_ge (depth u) (d + 1) with hlt | hge
          · have hdu : depth u = d := by omega
            by_cases hacc : u ∈ acc
            · exact Or.inl hacc
            · rcases (flakyCond_unfold K F u).mp hcond with h | ⟨hch, hall⟩
              · exact Or.inl ((hInv u).mpr (Or.inl h))
              · refine Or.inr ⟨huF, hdu, hacc, hch, ?_⟩
                intro c hc
                obtain ⟨hcF, hsc⟩ := mem_child_list.mp hc
                have hlt2 := depth_lt_of_strict_child hsc
                exact (hInv c).mpr (Or.inr ⟨hcF, by omega, hall c hc⟩)
          · exact Or.inl ((hInv u).mpr (Or.inr ⟨huF, hge, hcond⟩))

theorem consolidate_mem (K F : List Name) (t : Name) :
    t ∈ consolidate_flaky_failures K F ↔ t ∈ K ∨ (t ∈ F ∧ flakyCond K F t = true) := by
  refine consolidateGo_inv K F (maxDepth F + 1) K ?_ t
  intro u
  constructor
  · exact fun h => Or.inl h
  · rintro (h | ⟨huF, hdep, -⟩)
    · exact h
    · have := depth_le_maxDepth huF
      omega

theorem length_famAux : ∀ (rest acc : Name), (famAux acc rest).length = depth rest + 1 := by
  intro rest
  induction rest with
  | nil => intro acc; simp [famAux, depth]
  | cons c cs ih =>
      intro acc
      by_cases hc : c = sep
      · simp [famAux, hc, depth, ih]
        omega
      · simp [famAux, hc, depth, ih]

theorem le_length_of_mem_famAux :
    ∀ (rest acc x : Name), x ∈ famAux acc rest → acc.length ≤ x.length := by
  intro rest
  induction rest with
  | nil =>
      intro acc x hx
      simp [famAux] at hx
      simp [hx]
  | cons c cs ih =>
      intro acc x hx
      by_cases hc : c = sep
      · simp only [famAux, if_pos hc, List.mem_cons] at hx
        rcases hx with rfl | hx
        · exact Nat.le_refl _
        · have := ih (acc ++ [c]) x hx
          simp [List.length_append] at this
          omega
      · simp only [famAux, if_neg hc] at hx
        have := ih (acc ++ [c]) x hx
        simp [List.length_append] at this
        omega

theorem nodup_famAux : ∀ (rest acc : Name), (famAux acc rest).Nodup := by
  intro rest
  induction rest with
  | nil => intro acc; simp [famAux]
  | cons c cs ih =>
      intro acc
      by_cases hc : c = sep
      · simp only [famAux, if_pos hc]
        refine List.nodup_cons.mpr ⟨?_, ih _⟩
        intro hmem
        have := le_length_of_mem_famAux cs (acc ++ [c]) acc hmem
        simp [List.length_append] at this
      · simp only [famAux, if_neg hc]
        exact ih _

theorem append_mem_famAux : ∀ (rest acc : Name), acc ++ rest ∈ famAux acc rest := by
  intro rest
  induction rest with
  | nil => intro acc; simp [famAux]
  | cons c cs ih =>
      intro acc
      have h := ih (acc ++ [c])
      by_cases hc : c = sep
      · simp only [famAux, if_pos hc]
        refine List.mem_cons_of_mem _ ?_
        simpa using h
      · simp only [famAux, if_neg hc]
        simpa using h

theorem famAux_of_no_sep :
    ∀ (rest acc : Name), sep ∉ rest → famAux acc rest = [acc ++ rest] := by
  intro rest
  induction rest with
  | nil => intro acc _; simp [famAux]
  | cons c cs ih =>
      intro acc h
      have hc : c ≠ sep := by
        intro hh
        exact h (by rw [hh]; exact List.mem_cons_self _ _)
      simp only [famAux, if_neg hc]
      rw [ih (acc ++ [c]) (fun hh => h (List.mem_cons_of_mem c hh))]
      simp

theorem famAux_cons_sep (acc cs : Name) :
    famAux acc (sep :: cs) = acc :: famAux (acc ++ [sep]) cs := by
  simp [famAux]

theorem famAux_cons_ne {c : Char} (hc : c ≠ sep) (acc cs : Name) :
    famAux acc (c :: cs) = famAux (acc ++ [c]) cs := by
  simp [famAux, hc]

theorem mem_famAux_iff :
    ∀ (rest acc x : Name),
      x ∈ famAux acc rest ↔
        x = acc ++ rest ∨ ∃ u r, rest = u ++ sep :: r ∧ x = acc ++ u := by
  intro rest
  induction rest with
  | nil =>
      intro acc x
      simp only [famAux, List.mem_singleton, List.append_nil]
      constructor
      · intro h; exact Or.inl h
      · rintro (h | ⟨u, r, hur, -⟩)
        · exact h
        · rcases u with _ | ⟨b, u⟩ <;> simp at hur
  | cons c cs ih =>
      intro acc x
      by_cases hc : c = sep
      · subst hc
        rw [famAux_cons_sep]
        simp only [List.mem_cons, ih]
        constructor
        · rintro (rfl | rfl | ⟨u, r, rfl, rfl⟩)
          · exact Or.inr ⟨[], cs, rfl, by simp⟩
          · exact Or.inl (by simp)
          · exact Or.inr ⟨sep :: u, r, by simp, by simp⟩
        · rintro (rfl | ⟨u, r, heq, rfl⟩)
          · exact Or.inr (Or.inl (by simp))
          · rcases u with _ | ⟨b, u⟩
            · simp only [List.nil_append, List.cons.injEq] at heq
              exact Or.inl (by simp [heq.2])
            · simp only [List.cons_append, List.cons.injEq] at heq
              exact Or.inr (Or.inr ⟨u, r, heq.2, by simp [heq.1]⟩)
      · rw [famAux_cons_ne hc]
        rw [ih]
        constructor
        · rintro (rfl | ⟨u, r, rfl, rfl⟩)
          · exact Or.inl (by simp)
          · exact Or.inr ⟨c :: u, r, by simp, by simp⟩
        · rintro (rfl | ⟨u, r, heq, rfl⟩)
          · exact Or.inl (by simp)
          · rcases u with _ | ⟨b, u⟩
            · simp only [List.nil_append, List.cons.injEq] at heq
              exact absurd heq.1 hc
            · simp only [List.cons_append, List.cons.injEq] at heq
              exact Or.inr ⟨u, r, heq.2, by simp [heq.1]⟩

theorem mem_family_of_iff (n x : Name) :
    x ∈ family_of n ↔ x = n ∨ ∃ r, n = x ++ sep :: r := by
  unfold family_of
  rw [mem_famAux_iff]
  simp only [List.nil_append]
  constructor
  · rintro (rfl | ⟨u, r, rfl, rfl⟩)
    · exact Or.inl rfl
    · exact Or.inr ⟨r, rfl⟩
  · rintro (rfl | ⟨r, rfl⟩)
    · exact Or.inl rfl
    · exact Or.inr ⟨x, r, rfl, rfl⟩

theorem mem_get_tests_family : ∀ (l : List Name) (x : Name),
    x ∈ get_tests_family l ↔ ∃ n ∈ l, x ∈ family_of n := by
  intro l
  induction l with
  | nil => intro x; simp [get_tests_family]
  | cons n ns ih =>
      intro x
      simp only [get_tests_family, List.foldr_cons] at ih ⊢
      simp [List.mem_append, ih]

theorem card_family_of (n : Name) : (family_of n).toFinset.card = numSegments n := by
  unfold family_of numSegments
  rw [List.toFinset_card_of_nodup (nodup_famAux n []), length_famAux]

/-- Validation: the model reproduces `test_get_tests_parents` of
`tasks/unit_tests/flakes_tests.py`. -/
theorem model_test_get_tests_parents :
    (get_tests_family [nm "TestEKSSuite/TestCPU/TestCPUUtilization",
        nm "TestKindSuite/TestKind"]).toFinset =
      ([nm "TestEKSSuite", nm "TestEKSSuite/TestCPU",
        nm "TestEKSSuite/TestCPU/TestCPUUtilization", nm "TestKindSuite",
        nm "TestKindSuite/TestKind"] : List Name).toFinset := by decide

/-- Validation: the model reproduces the two `get_tests_family_if_failing_tests`
tests with a non-empty failing set. -/
theorem model_test_get_test_parents_failing :
    (get_tests_family_if_failing_tests
        [nm "TestEKSSuite/TestCPU/TestCPUUtilization", nm "TestKindSuite/TestCPU"]
        [nm "TestKindSuite/TestCPU",
          nm "TestEKSSuite/TestCPU/TestCPUUtilization"]).toFinset =
      ([nm "TestEKSSuite", nm "TestEKSSuite/TestCPU",
        nm "TestEKSSuite/TestCPU/TestCPUUtilization", nm "TestKindSuite",
        nm "TestKindSuite/TestCPU"] : List Name).toFinset ∧
    (get_tests_family_if_failing_tests
        [nm "TestEKSSuite/TestCPU/TestCPUUtilization", nm "TestKindSuite/TestCPU"]
        [nm "TestKindSuite/TestCPU"]).toFinset =
      ([nm "TestKindSuite", nm "TestKindSuite/TestCPU"] : List Name).toFinset := by
  constructor <;> decide

/-- Validation: the model reproduces the six `is_known_flaky_test` tests of
`tasks/unit_tests/flakes_tests.py`. -/
theorem model_test_is_known_flaky :
    is_known_flaky_test (nm "TestEKSSuite/mario") [nm "TestEKSSuite/mario"]
      [nm "TestEKSSuite", nm "TestEKSSuite/mario"] = true ∧
    is_known_flaky_test (nm "TestEKSSuite") [nm "TestEKSSuite/mario"]
      [nm "TestEKSSuite", nm "TestEKSSuite/mario"] = true ∧
    is_known_flaky_test (nm "TestEKSSuite/mario") [nm "TestEKSSuite/mario/luigi"]
      [nm "TestEKSSuite", nm "TestEKSSuite/mario", nm "TestEKSSuite/mario/luigi"] = true ∧
    is_known_flaky_test (nm "TestEKSSuite/luigi") [nm "TestEKSSuite/mario"]
      [nm "TestEKSSuite", nm "TestEKSSuite/mario"] = false ∧
    is_known_flaky_test (nm "TestEKSSuiteVM/mario") [nm "TestEKSSuite/mario"]
      [nm "TestEKSSuite"] = false ∧
    is_known_flaky_test (nm "TestEKSSuite/mario") [nm "TestEKSSuiteVM/mario"]
      [nm "TestEKSSuiteVM"] = false := by decide

/-- Validation: the model reproduces the five `consolidate_flaky_failures`
tests of `tasks/unit_tests/flakes_tests.py`. -/
theorem model_test_consolidate :
    (consolidate_flaky_failures [nm "TestEKSSuite/Mario"]
        [nm "TestEKSSuite/Mario"]).toFinset =
      ([nm "TestEKSSuite/Mario"] : List Name).toFinset ∧
    (consolidate_flaky_failures [nm "TestEKSSuite/Mario"]
        [nm "TestEKSSuite", nm "TestEKSSuite/Mario"]).toFinset =
      ([nm "TestEKSSuite/Mario", nm "TestEKSSuite"] : List Name).toFinset ∧
    (consolidate_flaky_failures [nm "TestEKSSuite/Mario"]
        [nm "TestEKSSuite", nm "TestEKSSuite/Luigi"]).toFinset =
      ([nm "TestEKSSuite/Mario"] : List Name).toFinset ∧
    (consolidate_flaky_failures
        [nm "TestEKSSuite/Mario/Luigi/Wario", nm "TestEKSSuite/Mario/Luigi/Waluigi"]
        [nm "TestEKSSuite/Mario", nm "TestEKSSuite/Mario/Luigi",
          nm "TestEKSSuite/Mario/Luigi/Wario", nm "TestEKSSuite/Mario/Luigi/Waluigi",
          nm "TestKindSuite/Mario"]).toFinset =
      ([nm "TestEKSSuite/Mario", nm "TestEKSSuite/Mario/Luigi",
        nm "TestEKSSuite/Mario/Luigi/Wario",
        nm "TestEKSSuite/Mario/Luigi/Waluigi"] : List Name).toFinset ∧
    (consolidate_flaky_failures
        [nm "TestEKSSuite/Mario/Luigi/Wario", nm "TestEKSSuite/Mario/Luigi/Waluigi"]
        [nm "TestEKSSuite/Mario", nm "TestEKSSuite/Mario/Luigi",
          nm "TestEKSSuite/Mario/Luigi/Wario", nm "TestEKSSuite/Mario/Luigi/Waluigi",
          nm "TestEKSSuite/Mario/Luigi/Yoshi", nm "TestKindSuite/Mario"]).toFinset =
      ([nm "TestEKSSuite/Mario/Luigi/Wario",
        nm "TestEKSSuite/Mario/Luigi/Waluigi"] : List Name).toFinset := by
  refine ⟨by decide, by decide, by decide, by decide, by decide⟩

/-- Validation: the model reproduces the `is_strict_child` and
`get_child_test_in_list` tests of `tasks/unit_tests/flakes_tests.py`. -/
theorem model_test_child :
    is_strict_child (nm "TestEKSSuite") (nm "TestEKSSuite/TestCPU") = true ∧
    is_strict_child (nm "TestEKSSuite/TestCPU")
      (nm "TestEKSSuite/TestCPU/TestCPUUtilization") = true ∧
    is_strict_child (nm "TestEKSSuite")
      (nm "TestKindSuite/TestCPU/TestToto/TestNario") = false ∧
    is_strict_child (nm "TestEKSSuite/TestCPU")
      (nm "TestKindSuite/TestCPU/TestCPUUtilization") = false ∧
    get_child_test_in_list (nm "TestEKSSuite/TestCPU")
        [nm "TestEKSSuite/TestCPU/TestCPUUtilization", nm "TestEKSSuite/TestCPU",
          nm "TestKindSuite/TestCPU", nm "TestEKSSuite/TestCPU/TestCPUUtilization/Toto"] =
      [nm "TestEKSSuite/TestCPU/TestCPUUtilization",
        nm "TestEKSSuite/TestCPU/TestCPUUtilization/Toto"] := by decide

/-- C1 (counterexample): the result of `consolidate_flaky_failures` is not
drawn from the failing set alone — with known-flaky `{A/B}` and failing
`{A, A/C}`, the result contains `A/B`, which is not a failing name, so the
claim that the result consists exactly of names drawn from the failing set
fails. -/
theorem C1_result_not_drawn_from_failing :
    nm "A/B" ∈ consolidate_flaky_failures [nm "A/B"] [nm "A", nm "A/C"] ∧
    nm "A/B" ∉ [nm "A", nm "A/C"] := by decide

/-- C1 (amended): `consolidate_flaky_failures K F` contains exactly the
known-flaky names of `K` together with the failing names `N` of `F` such
that `N` is in `K`, or `N` has at least one strict descendant in `F` and
every strict descendant of `N` in `F` satisfies the same condition
recursively (`flakyCond`, whose recursive unfolding is the second
conjunct); a name with zero strict descendants in `F` is included only
when it is directly in `K`. -/
theorem C1_consolidate_returns_flaky_union :
    ∀ (K F : List Name) (t : Name),
      (t ∈ consolidate_flaky_failures K F ↔
        t ∈ K ∨ (t ∈ F ∧ flakyCond K F t = true)) ∧
      (flakyCond K F t = true ↔
        t ∈ K ∨ (get_child_test_in_list t F ≠ [] ∧
          ∀ c ∈ get_child_test_in_list t F, flakyCond K F c = true)) :=
  fun K F t => ⟨consolidate_mem K F t, flakyCond_unfold K F t⟩

/-- C2 (counterexample): at the repository's own test input (a parent whose
failing child is known flaky), `is_known_flaky_test` returns true although
the name is not in the known-flaky set and no strict ancestor of it is in
the known-flaky set, so the claimed characterization fails. -/
theorem C2_parent_of_flaky_is_flaky_contra :
    is_known_flaky_test (nm "TestEKSSuite") [nm "TestEKSSuite/mario"]
        [nm "TestEKSSuite", nm "TestEKSSuite/mario"] = true ∧
    nm "TestEKSSuite" ∉ [nm "TestEKSSuite/mario"] ∧
    ∀ a ∈ [nm "TestEKSSuite", nm "TestEKSSuite/mario"],
      ¬(a ∈ [nm "TestEKSSuite/mario"] ∧
        is_strict_child a (nm "TestEKSSuite") = true) := by decide

/-- C2 (amended): `is_known_flaky_test name K fam` is true iff `name` is in
`K`, or some strict ancestor of `name` belonging to `fam` is in `K`, or
`name` belongs to `fam` and some element of `K` is a strict descendant of
`name`. -/
theorem C2_is_known_flaky_iff_amended (name : Name) (K fam : List Name) :
    is_known_flaky_test name K fam = true ↔
      name ∈ K ∨ (∃ a ∈ fam, a ∈ K ∧ is_strict_child a name = true) ∨
        (name ∈ fam ∧ ∃ k ∈ K, is_strict_child name k = true) := by
  simp [is_known_flaky_test, List.any_eq_true, Bool.or_eq_true, Bool.and_eq_true,
    decide_eq_true_iff, and_assoc, or_assoc]

/-- C3: `is_strict_child a b` is true iff `b` equals `a` followed by the
separator `/` and a non-empty remainder; in particular a mere textual
prefix without a separator boundary is rejected:
`is_strict_child "TestEKSSuite" "TestEKSSuiteVM/x"` is false. -/
theorem C3_strict_child_boundary :
    (∀ a b : Name, is_strict_child a b = true ↔ ∃ r, r ≠ [] ∧ b = a ++ sep :: r) ∧
    is_strict_child (nm "TestEKSSuite") (nm "TestEKSSuiteVM/x") = false :=
  ⟨is_strict_child_iff, by decide⟩

/-- C4: `get_tests_family L` is the union over the names of `L` of their
families; the family of a single name consists of the name and its
cumulative `/`-prefixes, contains the name, and has cardinality equal to
the number of `/`-separated segments of the name; the family of the empty
list is empty. -/
theorem C4_family_union_and_card :
    (∀ (L : List Name) (x : Name), x ∈ get_tests_family L ↔ ∃ n ∈ L, x ∈ family_of n) ∧
    (∀ n x : Name, x ∈ family_of n ↔ x = n ∨ ∃ r, n = x ++ sep :: r) ∧
    (∀ n : Name, n ∈ family_of n ∧ (family_of n).toFinset.card = numSegments n) ∧
    get_tests_family [] = [] :=
  ⟨mem_get_tests_family, mem_family_of_iff,
   fun n => ⟨(mem_family_of_iff n n).mpr (Or.inl rfl), card_family_of n⟩, rfl⟩

/-- C5: `get_tests_family_if_failing_tests leaves failing` is the family
union of exactly those leaves that are themselves failing or have a strict
ancestor in the failing set; with an empty failing set the result is empty
for every list of leaves. -/
theorem C5_failing_families (leaves failing : List Name) :
    (∀ x, x ∈ get_tests_family_if_failing_tests leaves failing ↔
      ∃ n ∈ leaves, (n ∈ failing ∨ ∃ a ∈ failing, is_strict_child a n = true) ∧
        x ∈ family_of n) ∧
    get_tests_family_if_failing_tests leaves [] = [] := by
  constructor
  · intro x
    unfold get_tests_family_if_failing_tests
    rw [mem_get_tests_family]
    simp [List.mem_filter, List.any_eq_true, decide_eq_true_iff, Bool.or_eq_true,
      and_assoc]
  · unfold get_tests_family_if_failing_tests
    simp [get_tests_family]

/-- C6: `is_known_flaky_test` never reports flakiness across a prefix
collision lacking a `/` boundary: for any two distinct names neither of
which is a strict descendant of the other, the one is never explained by a
known-flaky set containing only the other, whatever the family set; in
particular both concrete prefix-collision cases of the claim are false. -/
theorem C6_no_prefix_collision :
    (∀ (x y : Name) (fam : List Name), x ≠ y → is_strict_child x y = false →
      is_strict_child y x = false → is_known_flaky_test x [y] fam = false) ∧
    is_known_flaky_test (nm "TestEKSSuiteVM/mario") [nm "TestEKSSuite/mario"]
      [nm "TestEKSSuite"] = false ∧
    is_known_flaky_test (nm "TestEKSSuite/mario") [nm "TestEKSSuiteVM/mario"]
      [nm "TestEKSSuiteVM"] = false := by
  refine ⟨?_, by decide, by decide⟩
  intro x y fam hxy hxyc hyxc
  rw [Bool.eq_false_iff]
  intro h
  unfold is_known_flaky_test at h
  simp only [Bool.or_eq_true, Bool.and_eq_true, List.any_eq_true, decide_eq_true_iff,
    List.mem_singleton] at h
  rcases h with (hx | ⟨a, ha, rfl, hsc⟩) | ⟨hxf, k, rfl, hsc⟩
  · exact hxy hx
  · rw [hyxc] at hsc
    exact Bool.false_ne_true hsc
  · rw [hxyc] at hsc
    exact Bool.false_ne_true hsc

/-- Witness for C6 at two boundary-unrelated names sharing a textual
prefix. -/
theorem C6_witness :
    is_known_flaky_test (nm "Alpha") [nm "AlphaBeta"] [nm "Gamma"] = false :=
  C6_no_prefix_collision.1 (nm "Alpha") (nm "AlphaBeta") [nm "Gamma"]
    (by decide) (by decide) (by decide)

/-- C7: `get_child_test_in_list name l` is an ordered subsequence of `l`
(a sublist), its members are exactly the elements of `l` that are strict
descendants of `name` at any depth per the separator-boundary rule, and
`name` itself is never included. -/
theorem C7_child_list_order_and_membership (name : Name) (l : List Name) :
    List.Sublist (get_child_test_in_list name l) l ∧
    (∀ c, c ∈ get_child_test_in_list name l ↔
      c ∈ l ∧ ∃ r, r ≠ [] ∧ c = name ++ sep :: r) ∧
    name ∉ get_child_test_in_list name l := by
  refine ⟨List.filter_sublist l, ?_, ?_⟩
  · intro c
    rw [mem_child_list, is_strict_child_iff]
  · intro h
    obtain ⟨-, hsc⟩ := mem_child_list.mp h
    have := depth_lt_of_strict_child hsc
    omega

/-- C8: every operation of the model is a total Lean function, so no input
raises; substantively, a name containing no separator (the empty string
included) is its own singleton family with no ancestors. -/
theorem C8_total_and_singleton_family :
    (∀ n : Name, sep ∉ n → family_of n = [n]) ∧ family_of [] = [[]] := by
  constructor
  · intro n h
    unfold family_of
    rw [famAux_of_no_sep n [] h]
    simp
  · rfl

/-- Witness for C8 at the separator-free name `abc`. -/
theorem C8_witness : family_of (nm "abc") = [nm "abc"] :=
  C8_total_and_singleton_family.1 (nm "abc") (by decide)

/-- C9 (counterexample): a known-flaky strict descendant present in the
family set does not make the parent flaky when the parent itself is
outside the family set, so the claim fails as stated. -/
theorem C9_counterexample :
    is_known_flaky_test (nm "A") [nm "A/b"] [nm "A/b"] = false ∧
    nm "A/b" ∈ ([nm "A/b"] : List Name) ∧
    is_strict_child (nm "A") (nm "A/b") = true := by decide

/-- C9 (amended): flakiness propagates upward provided the parent belongs
to the family set: if `name` is in `fam` and some member of `fam` that is
a strict descendant of `name` is in `K`, then
`is_known_flaky_test name K fam` is true. -/
theorem C9_upward_propagation_amended (name m : Name) (K fam : List Name)
    (h1 : name ∈ fam) (_h2 : m ∈ fam) (h3 : m ∈ K)
    (h4 : is_strict_child name m = true) :
    is_known_flaky_test name K fam = true := by
  have hb : (decide (name ∈ fam) && K.any (fun k => is_strict_child name k)) = true := by
    rw [Bool.and_eq_true]
    exact ⟨decide_eq_true h1, List.any_eq_true.mpr ⟨m, h3, h4⟩⟩
  unfold is_known_flaky_test
  rw [hb]
  simp

/-- Witness for C9 at a parent present in the family set. -/
theorem C9_witness :
    is_known_flaky_test (nm "A") [nm "A/b"] [nm "A", nm "A/b"] = true :=
  C9_upward_propagation_amended (nm "A") (nm "A/b") [nm "A/b"] [nm "A", nm "A/b"]
    (by decide) (by decide) (by decide) (by decide)

/-- C10: every known-flaky name is contained in the consolidation result,
whether failing or not, and consequently the result is not in general a
subset of the failing set. -/
theorem C10_known_flaky_subset_of_result :
    (∀ (K F : List Name) (t : Name), t ∈ K → t ∈ consolidate_flaky_failures K F) ∧
    ∃ (K F : List Name) (t : Name), t ∈ consolidate_flaky_failures K F ∧ t ∉ F := by
  constructor
  · intro K F t ht
    exact (consolidate_mem K F t).mpr (Or.inl ht)
  · exact ⟨[nm "A/B"], [nm "A", nm "A/C"], nm "A/B", by decide, by decide⟩

/-- Witness for C10: a known-flaky name is in the result even with nothing
failing. -/
theorem C10_witness :
    nm "X" ∈ consolidate_flaky_failures [nm "X"] [] :=
  C10_known_flaky_subset_of_result.1 [nm "X"] [] (nm "X") (by decide)

end Flakes
